import Mathlib

/-!
Verification of the dns-benchmark measurement engine against its
natural-language specification.

The development shallowly embeds the Go sources:

* `benchmark/benchmark.go` — the job/worker/result engine (`Run`), the probe
  dispatch inside `Client.Measure`, and the duration-mode random sampler;
* `main.go` — the aggregation pipeline `calculateStats`.

Durations are modelled as natural numbers of nanoseconds (Go `time.Duration`
values produced by `time.Since` are non-negative, and no claim depends on
int64 overflow).  Go floating-point percentages are modelled exactly over ℚ.
The concurrent worker pool of `Run` is modelled as a small-step transition
system over an explicit engine state (job channel, in-flight worker slots,
result list); Go channels become FIFO lists with the source's buffer bound.
-/

namespace DnsBench

/-- Job mirrors `benchmark.Job`: a single benchmark task. -/
structure Job where
  server : String
  domain : String
deriving DecidableEq, Repr

/-- Result mirrors `benchmark.Result`: the outcome of a single DNS query.
`duration` is in nanoseconds; `error = none` models a nil Go error. -/
structure Result where
  server : String
  domain : String
  duration : Nat
  error : Option String
deriving DecidableEq, Repr

/-- Probe abstracts the network part of `Client.Measure`: for a server and a
domain it yields the observed elapsed time and the (optional) error.  The
engine treats the probe as an opaque synchronous function. -/
abbrev Probe := String → String → Nat × Option String

/-- measureJob mirrors the tail of `Client.Measure` (benchmark.go:76-81): the
returned `Result` echoes the server address and domain it was called with and
carries the elapsed duration and error of the probe. -/
def measureJob (probe : Probe) (j : Job) : Result :=
  { server := j.server
    domain := j.domain
    duration := (probe j.server j.domain).1
    error := (probe j.server j.domain).2 }

/-- jobOf projects a `Result` back to the job it answers. -/
def jobOf (r : Result) : Job := { server := r.server, domain := r.domain }

/-- listHasPre mirrors Go `strings.HasPrefix` on rune lists. -/
def listHasPre : List Char → List Char → Bool
  | [], _ => true
  | _ :: _, [] => false
  | p :: ps, c :: cs => p == c && listHasPre ps cs

/-- hasPre mirrors `strings.HasPrefix(s, pre)`. -/
def hasPre (s pre : String) : Bool := listHasPre pre.data s.data

/-- trimPre mirrors `strings.TrimPrefix(s, pre)`: drops `pre` from the front
of `s` when present, otherwise returns `s` unchanged. -/
def trimPre (s pre : String) : String :=
  if hasPre s pre then ⟨s.data.drop pre.data.length⟩ else s

/-- containsChar mirrors `strings.Contains(s, c)` for a one-rune needle. -/
def containsChar (s : String) (c : Char) : Bool := s.data.contains c

/-- DnsQuery describes which transport `Client.Measure` selects and the
target it queries: a DoH URL, a DoT host address, or a plain-DNS host
address. -/
inductive DnsQuery where
  | doh (url : String)
  | dot (hostAddr : String)
  | udp (hostAddr : String)
deriving DecidableEq, Repr

/-- protocolDispatch mirrors the protocol-detection switch of
`Client.Measure` (benchmark.go:43-72): `https://` addresses go over DoH
as-is; `tls://` addresses are trimmed and get `:853` appended when portless;
everything else is plain DNS with `:53` appended when portless. -/
def protocolDispatch (serverAddr : String) : DnsQuery :=
  if hasPre serverAddr "https://" then
    .doh serverAddr
  else if hasPre serverAddr "tls://" then
    let host := trimPre serverAddr "tls://"
    .dot (if containsChar host ':' then host else host ++ ":853")
  else
    .udp (if containsChar serverAddr ':' then serverAddr else serverAddr ++ ":53")

/-- intN models `math/rand.Intn`: for a positive bound it returns the random
draw reduced modulo the bound; for bound 0 it fails the way the Go function
panics ("invalid argument to Intn").  `r` stands for the generator's raw
draw. -/
def intN (n : Nat) (r : Nat) : Except String Nat :=
  if n = 0 then .error "invalid argument to Intn" else .ok (r % n)

/-- sampleDurationJob mirrors one iteration of the duration-mode enqueue
goroutine of `Run` (benchmark.go:239-246): pick a random server index and a
random domain index with `rand.Intn` and form the job.  The `Except` layer
carries the panic of `rand.Intn` on an empty list. -/
def sampleDurationJob (servers domains : List String) (rs rd : Nat) :
    Except String Job := do
  let si ← intN servers.length rs
  let di ← intN domains.length rd
  pure { server := servers.getD si "", domain := domains.getD di "" }

/-- EngineConfig is the part of `benchmark.Config` the iteration-mode engine
reads: server list, domain list, iteration count and worker count. -/
structure EngineConfig where
  servers : List String
  domains : List String
  iterations : Nat
  concurrency : Nat

/-- crossJobs is one pass of the two inner loops of the iteration-mode
enqueue code (benchmark.go:259-263): all servers in list order, and for each
server all domains in list order. -/
def crossJobs (servers domains : List String) : List Job :=
  servers.flatMap fun s => domains.map fun d => { server := s, domain := d }

/-- iterationJobs is the full job sequence the iteration-mode enqueue loop of
`Run` sends on the jobs channel (benchmark.go:258-264): the outermost loop
runs over the iteration counter, the middle loop over servers, the innermost
loop over domains. -/
def iterationJobs (cfg : EngineConfig) : List Job :=
  (List.range cfg.iterations).flatMap fun _ => crossJobs cfg.servers cfg.domains

/-- specClaimedJobOrder is modelled from the spec wording of the claimed
iteration-mode emission order ("for each server, for each domain, the job is
emitted for each of the n iterations before moving to the next domain"):
iteration would be the innermost loop.  Kept beside `iterationJobs` to
compare the spec's order with the source's order. -/
def specClaimedJobOrder (servers domains : List String) (n : Nat) : List Job :=
  servers.flatMap fun s => domains.flatMap fun d =>
    List.replicate n { server := s, domain := d }

/-- bufferSize mirrors the channel buffer chosen by `Run`
(benchmark.go:173). -/
def bufferSize (cfg : EngineConfig) : Nat := cfg.concurrency * 10

/-- EngineState is the observable state of one iteration-mode `Run`:
`pending` jobs the enqueue goroutine has not yet sent, the FIFO content of
the `jobs` channel, the multiset of jobs currently held by workers, the
collected results, and whether the jobs channel has been closed. -/
structure EngineState where
  pending : List Job
  queue : List Job
  inflight : List Job
  results : List Result
  closed : Bool
deriving DecidableEq, Repr

/-- initState is the state of `Run` right after the goroutines start, before
any channel operation: the whole iteration-mode job sequence is still to be
sent. -/
def initState (cfg : EngineConfig) : EngineState :=
  { pending := iterationJobs cfg
    queue := []
    inflight := []
    results := []
    closed := false }

/-- EngineStep is one scheduler-visible transition of iteration-mode `Run`:
the enqueue goroutine sends the next job (channel not closed and below its
buffer capacity), the enqueue goroutine closes the channel once done, an
idle worker receives a job, or a worker finishes its job and appends the
measured result.  A worker holds at most one job, so at most `concurrency`
jobs are in flight. -/
inductive EngineStep (cfg : EngineConfig) (probe : Probe) :
    EngineState → EngineState → Prop
  | enqueue (j : Job) (rest q w : List Job) (r : List Result)
      (hcap : q.length < bufferSize cfg) :
      EngineStep cfg probe
        { pending := j :: rest, queue := q, inflight := w, results := r, closed := false }
        { pending := rest, queue := q ++ [j], inflight := w, results := r, closed := false }
  | close (q w : List Job) (r : List Result) :
      EngineStep cfg probe
        { pending := [], queue := q, inflight := w, results := r, closed := false }
        { pending := [], queue := q, inflight := w, results := r, closed := true }
  | take (p : List Job) (j : Job) (q w : List Job) (r : List Result) (c : Bool)
      (hw : w.length < cfg.concurrency) :
      EngineStep cfg probe
        { pending := p, queue := j :: q, inflight := w, results := r, closed := c }
        { pending := p, queue := q, inflight := j :: w, results := r, closed := c }
  | finish (p q : List Job) (w₁ : List Job) (j : Job) (w₂ : List Job)
      (r : List Result) (c : Bool) :
      EngineStep cfg probe
        { pending := p, queue := q, inflight := w₁ ++ j :: w₂, results := r, closed := c }
        { pending := p, queue := q, inflight := w₁ ++ w₂,
          results := r ++ [measureJob probe j], closed := c }

/-- Steps is the reflexive-transitive closure of the engine transitions: a
whole (partial) schedule of one run. -/
def Steps (cfg : EngineConfig) (probe : Probe) : EngineState → EngineState → Prop :=
  Relation.ReflTransGen (EngineStep cfg probe)

/-- Terminal states are those where `Run` has returned: everything enqueued,
channel closed and drained, all workers idle. -/
def Terminal (st : EngineState) : Prop :=
  st.pending = [] ∧ st.queue = [] ∧ st.inflight = [] ∧ st.closed = true

/-- stateCount counts, for a job predicate, how many matching jobs sit in
each region of the engine state (results are counted through the job they
answer).  This is the conserved quantity of the engine. -/
def stateCount (p : Job → Bool) (st : EngineState) : Nat :=
  st.pending.countP p + st.queue.countP p + st.inflight.countP p +
    st.results.countP fun r => p (jobOf r)

/-- hourNs is Go `time.Hour` in nanoseconds, the sentinel `calculateStats`
uses to initialise the running minimum (main.go:427). -/
def hourNs : Nat := 3600000000000

/-- ServerStats mirrors `main.ServerStats`.  `lossPct` is kept as an exact
rational where the Go code stores a float64. -/
structure ServerStats where
  server : String
  total : Nat
  success : Nat
  errors : Nat
  min : Nat
  max : Nat
  totalTime : Nat
  avg : Nat
  lossPct : ℚ

/-- initStats mirrors the fresh per-server accumulator of `calculateStats`
(main.go:427): everything zero except the minimum, initialised to one hour. -/
def initStats (server : String) : ServerStats :=
  { server := server, total := 0, success := 0, errors := 0,
    min := hourNs, max := 0, totalTime := 0, avg := 0, lossPct := 0 }

/-- updateStats mirrors the per-record body of the grouping loop of
`calculateStats` (main.go:430-442): errors only bump the counters, successes
also accumulate total time and running min/max. -/
def updateStats (s : ServerStats) (r : Result) : ServerStats :=
  if r.error.isSome then
    { s with total := s.total + 1, errors := s.errors + 1 }
  else
    { s with
        total := s.total + 1
        success := s.success + 1
        totalTime := s.totalTime + r.duration
        min := if r.duration < s.min then r.duration else s.min
        max := if s.max < r.duration then r.duration else s.max }

/-- insertResult folds one record into the grouping structure: update the
(unique) accumulator of the record's server, creating it on first sight.
This realises the Go map `statsMap` as an association list in
first-appearance order. -/
def insertResult : List ServerStats → Result → List ServerStats
  | [], r => [updateStats (initStats r.server) r]
  | s :: rest, r =>
    if s.server = r.server then updateStats s r :: rest
    else s :: insertResult rest r

/-- buildStats is the whole grouping loop of `calculateStats`
(main.go:424-443). -/
def buildStats (results : List Result) : List ServerStats :=
  results.foldl insertResult []

/-- finalizeStats mirrors the second pass of `calculateStats`
(main.go:446-454): derive the average for servers with successes, derive the
loss percentage, and replace the untouched one-hour sentinel by zero for
servers without a single success. -/
def finalizeStats (s : ServerStats) : ServerStats :=
  { s with
      avg := if 0 < s.success then s.totalTime / s.success else s.avg
      lossPct := (s.errors : ℚ) / (s.total : ℚ) * 100
      min := if s.success = 0 then 0 else s.min }

/-- lessStats mirrors the `sort.Slice` comparator of `calculateStats`
(main.go:457-467): servers with successes come first, then ascending average
latency. -/
def lessStats (a b : ServerStats) : Bool :=
  if 0 < a.success ∧ b.success = 0 then true
  else if a.success = 0 ∧ 0 < b.success then false
  else decide (a.avg < b.avg)

/-- leStats is the non-strict order induced by the comparator: `a` may be
placed before `b` exactly when `b` is not strictly less than `a`.  Any
correct sort for `lessStats` orders the output by this relation. -/
def leStats (a b : ServerStats) : Bool := !(lessStats b a)

/-- insertSorted inserts an entry into a list ordered by `leStats`. -/
def insertSorted (a : ServerStats) : List ServerStats → List ServerStats
  | [] => [a]
  | b :: t => if leStats a b then a :: b :: t else b :: insertSorted a t

/-- sortStats realises the `sort.Slice` call of `calculateStats` as a
deterministic comparison sort for the same comparator. -/
def sortStats (l : List ServerStats) : List ServerStats :=
  l.foldr insertSorted []

/-- calculateStats mirrors `main.calculateStats`: group, finalise, rank. -/
def calculateStats (results : List Result) : List ServerStats :=
  sortStats ((buildStats results).map finalizeStats)

/-- lookupStats finds the statistics entry of a given server identifier:
the observable content of the Go `statsMap`. -/
def lookupStats : List ServerStats → String → Option ServerStats
  | [], _ => none
  | s :: rest, k => if s.server = k then some s else lookupStats rest k

/-- groupedStats is the accumulator `calculateStats` builds for one server:
the fold of `updateStats` over exactly the records of that server. -/
def groupedStats (l : List Result) (s : String) : ServerStats :=
  (l.filter fun r => decide (r.server = s)).foldl updateStats (initStats s)

/-- successDurations lists the elapsed times of the successful records, in
order. -/
def successDurations (l : List Result) : List Nat :=
  (l.filter fun r => r.error.isNone).map fun r => r.duration

/-- tierOf is the success tier the comparator sorts by first: tier 0 holds
the servers with at least one success, tier 1 the rest. -/
def tierOf (s : ServerStats) : Nat := if 0 < s.success then 0 else 1

end DnsBench

namespace DnsBench

/-! Field-level facts about the aggregation fold. -/

theorem updateStats_server (s : ServerStats) (r : Result) :
    (updateStats s r).server = s.server := by
  unfold updateStats; split <;> rfl

theorem updateStats_avg (s : ServerStats) (r : Result) :
    (updateStats s r).avg = s.avg := by
  unfold updateStats; split <;> rfl

theorem updateStats_lossPct (s : ServerStats) (r : Result) :
    (updateStats s r).lossPct = s.lossPct := by
  unfold updateStats; split <;> rfl

theorem finalizeStats_server (s : ServerStats) :
    (finalizeStats s).server = s.server := rfl

theorem finalizeStats_total (s : ServerStats) :
    (finalizeStats s).total = s.total := rfl

theorem finalizeStats_success (s : ServerStats) :
    (finalizeStats s).success = s.success := rfl

theorem finalizeStats_errors (s : ServerStats) :
    (finalizeStats s).errors = s.errors := rfl

theorem finalizeStats_max (s : ServerStats) :
    (finalizeStats s).max = s.max := rfl

theorem finalizeStats_min (s : ServerStats) :
    (finalizeStats s).min = if s.success = 0 then 0 else s.min := rfl

theorem finalizeStats_avg (s : ServerStats) :
    (finalizeStats s).avg = if 0 < s.success then s.totalTime / s.success else s.avg := rfl

theorem finalizeStats_lossPct (s : ServerStats) :
    (finalizeStats s).lossPct = (s.errors : ℚ) / (s.total : ℚ) * 100 := rfl

theorem successDurations_cons (r : Result) (t : List Result) :
    successDurations (r :: t) =
      if r.error.isNone then r.duration :: successDurations t else successDurations t := by
  by_cases h : r.error.isNone <;> simp [successDurations, List.filter_cons, h]

theorem foldl_updateStats_server (m : List Result) (a : ServerStats) :
    (m.foldl updateStats a).server = a.server := by
  induction m generalizing a with
  | nil => rfl
  | cons r t ih => rw [List.foldl_cons, ih, updateStats_server]

theorem foldl_updateStats_avg (m : List Result) (a : ServerStats) :
    (m.foldl updateStats a).avg = a.avg := by
  induction m generalizing a with
  | nil => rfl
  | cons r t ih => rw [List.foldl_cons, ih, updateStats_avg]

theorem foldl_updateStats_lossPct (m : List Result) (a : ServerStats) :
    (m.foldl updateStats a).lossPct = a.lossPct := by
  induction m generalizing a with
  | nil => rfl
  | cons r t ih => rw [List.foldl_cons, ih, updateStats_lossPct]

theorem foldl_updateStats_total (m : List Result) (a : ServerStats) :
    (m.foldl updateStats a).total = a.total + m.length := by
  induction m generalizing a with
  | nil => simp
  | cons r t ih =>
    rw [List.foldl_cons, ih]
    by_cases h : r.error.isSome <;> (simp [updateStats, h]; omega)

theorem foldl_updateStats_errors (m : List Result) (a : ServerStats) :
    (m.foldl updateStats a).errors = a.errors + m.countP (fun r => r.error.isSome) := by
  induction m generalizing a with
  | nil => simp
  | cons r t ih =>
    rw [List.foldl_cons, ih, List.countP_cons]
    by_cases h : r.error.isSome <;> simp [updateStats, h] <;> omega

theorem foldl_updateStats_success (m : List Result) (a : ServerStats) :
    (m.foldl updateStats a).success = a.success + m.countP (fun r => r.error.isNone) := by
  induction m generalizing a with
  | nil => simp
  | cons r t ih =>
    rw [List.foldl_cons, ih, List.countP_cons]
    cases h : r.error with
    | none => simp [updateStats, h]; omega
    | some e => simp [updateStats, h]

theorem foldl_updateStats_totalTime (m : List Result) (a : ServerStats) :
    (m.foldl updateStats a).totalTime = a.totalTime + (successDurations m).sum := by
  induction m generalizing a with
  | nil => simp [successDurations]
  | cons r t ih =>
    rw [List.foldl_cons, ih, successDurations_cons]
    cases h : r.error with
    | none => simp [updateStats, h]; omega
    | some e => simp [updateStats, h]

theorem foldl_updateStats_min (m : List Result) (a : ServerStats) :
    (m.foldl updateStats a).min = (successDurations m).foldl min a.min := by
  induction m generalizing a with
  | nil => simp [successDurations]
  | cons r t ih =>
    rw [List.foldl_cons, ih, successDurations_cons]
    cases h : r.error with
    | none =>
      simp only [updateStats, h, Option.isSome_none, Bool.false_eq_true, if_false,
        Option.isNone_none, if_true, List.foldl_cons]
      congr 1
      split <;> omega
    | some e => simp [updateStats, h]

theorem foldl_updateStats_max (m : List Result) (a : ServerStats) :
    (m.foldl updateStats a).max = (successDurations m).foldl max a.max := by
  induction m generalizing a with
  | nil => simp [successDurations]
  | cons r t ih =>
    rw [List.foldl_cons, ih, successDurations_cons]
    cases h : r.error with
    | none =>
      simp only [updateStats, h, Option.isSome_none, Bool.false_eq_true, if_false,
        Option.isNone_none, if_true, List.foldl_cons]
      congr 1
      split <;> omega
    | some e => simp [updateStats, h]

end DnsBench

namespace DnsBench

/-! Characterisation of the grouping map as an association list. -/

theorem lookupStats_insertResult (acc : List ServerStats) (r : Result) (s : String) :
    lookupStats (insertResult acc r) s =
      if r.server = s then
        some (updateStats ((lookupStats acc s).getD (initStats s)) r)
      else lookupStats acc s := by
  induction acc with
  | nil =>
    by_cases h : r.server = s
    · subst h; simp [insertResult, lookupStats, updateStats_server, initStats]
    · simp [insertResult, lookupStats, updateStats_server, initStats, h]
  | cons e t ih =>
    by_cases h1 : e.server = r.server
    · by_cases h2 : e.server = s
      · have hrs : r.server = s := h1 ▸ h2
        simp [insertResult, lookupStats, updateStats_server, h1, h2, hrs]
      · have hrs : ¬ r.server = s := fun hc => h2 (h1.trans hc)
        simp [insertResult, lookupStats, updateStats_server, h1, h2, hrs]
    · by_cases h2 : e.server = s
      · have hrs : ¬ r.server = s := fun hc => h1 (h2.trans hc.symm)
        have hstep : insertResult (e :: t) r = e :: insertResult t r := by
          simp [insertResult, h1]
        rw [hstep, if_neg hrs]
        simp only [lookupStats]
        rw [if_pos h2, if_pos h2]
      · simp [insertResult, lookupStats, h1, h2, ih]

theorem buildStats_append_singleton (l : List Result) (r : Result) :
    buildStats (l ++ [r]) = insertResult (buildStats l) r := by
  simp [buildStats, List.foldl_append]

theorem lookupStats_buildStats (l : List Result) (s : String) :
    lookupStats (buildStats l) s =
      if l.any (fun r => decide (r.server = s)) then some (groupedStats l s)
      else none := by
  induction l using List.reverseRecOn with
  | nil => simp [buildStats, lookupStats]
  | append_singleton t r ih =>
    rw [buildStats_append_singleton, lookupStats_insertResult, ih]
    by_cases hr : r.server = s
    · by_cases ht : t.any (fun x => decide (x.server = s)) = true
      · simp only [hr, if_true, ht, Option.getD_some]
        have hany : (t ++ [r]).any (fun x => decide (x.server = s)) = true := by
          simp [List.any_append, ht]
        rw [if_pos hany]
        have hfil : (t ++ [r]).filter (fun x => decide (x.server = s)) =
            t.filter (fun x => decide (x.server = s)) ++ [r] := by
          simp [List.filter_append, hr]
        simp [groupedStats, hfil, List.foldl_append]
      · simp only [hr, if_true, ht, if_false, Option.getD_none]
        have hany : (t ++ [r]).any (fun x => decide (x.server = s)) = true := by
          simp [List.any_append, hr]
        rw [if_pos hany]
        have hfil0 : t.filter (fun x => decide (x.server = s)) = [] := by
          rw [List.filter_eq_nil_iff]
          intro a ha
          simp only [decide_eq_true_eq]
          intro hc
          exact ht (List.any_eq_true.2 ⟨a, ha, by simp [hc]⟩)
        have hfil : (t ++ [r]).filter (fun x => decide (x.server = s)) = [r] := by
          simp [List.filter_append, hr, hfil0]
        simp [groupedStats, hfil]
    · have hany : (t ++ [r]).any (fun x => decide (x.server = s)) =
          t.any (fun x => decide (x.server = s)) := by
        simp [List.any_append, hr]
      have hfil : (t ++ [r]).filter (fun x => decide (x.server = s)) =
          t.filter (fun x => decide (x.server = s)) := by
        simp [List.filter_append, hr]
      simp only [hr, if_false, hany, groupedStats, hfil]

theorem groupedStats_server (l : List Result) (s : String) :
    (groupedStats l s).server = s := by
  simp [groupedStats, foldl_updateStats_server, initStats]

theorem keys_insertResult (acc : List ServerStats) (r : Result) :
    (insertResult acc r).map (fun e => e.server) =
      if acc.any (fun e => decide (e.server = r.server)) then
        acc.map (fun e => e.server)
      else acc.map (fun e => e.server) ++ [r.server] := by
  induction acc with
  | nil => simp [insertResult, updateStats_server, initStats]
  | cons e t ih =>
    by_cases h : e.server = r.server
    · simp [insertResult, h, updateStats_server]
    · simp only [insertResult, if_neg h, List.map_cons, List.any_cons, ih]
      by_cases ht : t.any (fun x => decide (x.server = r.server)) = true
      · simp [ht, h]
      · simp [ht, h]

theorem keys_buildStats_nodup (l : List Result) :
    ((buildStats l).map (fun e => e.server)).Nodup := by
  induction l using List.reverseRecOn with
  | nil => simp [buildStats]
  | append_singleton t r ih =>
    rw [buildStats_append_singleton, keys_insertResult]
    by_cases h : (buildStats t).any (fun e => decide (e.server = r.server)) = true
    · simpa [h] using ih
    · rw [if_neg h]
      have hnotmem : r.server ∉ (buildStats t).map (fun e => e.server) := by
        intro hm
        rcases List.mem_map.1 hm with ⟨e, he, hes⟩
        exact h (List.any_eq_true.2 ⟨e, he, by simp [hes]⟩)
      simp [List.nodup_append, ih, hnotmem]

theorem lookupStats_none_iff (acc : List ServerStats) (s : String) :
    lookupStats acc s = none ↔ s ∉ acc.map (fun e => e.server) := by
  induction acc with
  | nil => simp [lookupStats]
  | cons e t ih =>
    by_cases h : e.server = s
    · simp [lookupStats, h]
    · simp only [lookupStats, if_neg h, List.map_cons, List.mem_cons, ih]
      constructor
      · intro hn hc
        rcases hc with hc | hm
        · exact h hc.symm
        · exact hn hm
      · intro hn hm
        exact hn (Or.inr hm)

theorem lookupStats_self_of_mem {acc : List ServerStats} {e : ServerStats}
    (hnd : (acc.map (fun x => x.server)).Nodup) (he : e ∈ acc) :
    lookupStats acc e.server = some e := by
  induction acc with
  | nil => cases he
  | cons a t ih =>
    have hnd' : (∀ x ∈ t, ¬ x.server = a.server) ∧
        (t.map (fun x => x.server)).Nodup := by simpa using hnd
    rcases List.mem_cons.1 he with rfl | ht
    · simp [lookupStats]
    · have hne : ¬ a.server = e.server := fun hc => hnd'.1 e ht hc.symm
      simp [lookupStats, hne, ih hnd'.2 ht]

end DnsBench

namespace DnsBench

/-! Permutation and ordering facts for the ranked output. -/

theorem lookupStats_perm {l l' : List ServerStats} (h : l.Perm l') :
    (l.map (fun e => e.server)).Nodup → ∀ s, lookupStats l s = lookupStats l' s := by
  induction h with
  | nil => intro _ s; rfl
  | cons x h ih =>
    intro hnd s
    have hnd' : ((_ : List ServerStats).map (fun e => e.server)).Nodup :=
      (List.nodup_cons.1 (by simpa using hnd)).2
    by_cases hx : x.server = s
    · simp [lookupStats, hx]
    · simp [lookupStats, hx, ih hnd' s]
  | swap x y l =>
    intro hnd s
    have hxy : ¬ y.server = x.server := by
      have h' : (¬ y.server = x.server ∧ ∀ e ∈ l, ¬ e.server = y.server) ∧
          (∀ e ∈ l, ¬ e.server = x.server) ∧
          (l.map (fun e => e.server)).Nodup := by simpa using hnd
      exact h'.1.1
    by_cases h1 : y.server = s <;> by_cases h2 : x.server = s
    · exact absurd (h1.trans h2.symm) hxy
    · simp [lookupStats, h1, h2]
    · simp [lookupStats, h1, h2]
    · simp [lookupStats, h1, h2]
  | trans h1 h2 ih1 ih2 =>
    intro hnd s
    have hnd2 := ((h1.map (fun e => e.server)).nodup_iff).1 hnd
    exact (ih1 hnd s).trans (ih2 hnd2 s)

theorem insertSorted_perm (a : ServerStats) (l : List ServerStats) :
    (insertSorted a l).Perm (a :: l) := by
  induction l with
  | nil => exact List.Perm.refl _
  | cons b t ih =>
    by_cases h : leStats a b = true
    · simp [insertSorted, h]
    · simp only [insertSorted, if_neg h]
      exact (ih.cons b).trans (List.Perm.swap a b t)

theorem sortStats_perm (l : List ServerStats) : (sortStats l).Perm l := by
  induction l with
  | nil => exact List.Perm.refl _
  | cons a t ih =>
    exact (insertSorted_perm a (sortStats t)).trans (ih.cons a)

theorem lessStats_eq_lex (a b : ServerStats) :
    lessStats a b =
      decide (tierOf a < tierOf b ∨ (tierOf a = tierOf b ∧ a.avg < b.avg)) := by
  unfold lessStats tierOf
  by_cases h1 : 0 < a.success <;> by_cases h2 : 0 < b.success
  · have ha : ¬ a.success = 0 := by omega
    have hb : ¬ b.success = 0 := by omega
    simp [h1, h2, ha, hb, decide_eq_decide]
  · have hb : b.success = 0 := by omega
    simp [h1, h2, hb, decide_eq_decide]
  · have ha : a.success = 0 := by omega
    have hb : ¬ b.success = 0 := by omega
    simp [h1, h2, ha, hb, decide_eq_decide]
  · simp [h1, h2, decide_eq_decide]

theorem leStats_total (a b : ServerStats) :
    leStats a b = true ∨ leStats b a = true := by
  simp only [leStats, lessStats_eq_lex, Bool.not_eq_true', decide_eq_false_iff_not]
  omega

theorem leStats_trans {a b c : ServerStats} (hab : leStats a b = true)
    (hbc : leStats b c = true) : leStats a c = true := by
  simp only [leStats, lessStats_eq_lex, Bool.not_eq_true', decide_eq_false_iff_not] at *
  omega

theorem pairwise_insertSorted (a : ServerStats) (l : List ServerStats)
    (hl : l.Pairwise fun x y => leStats x y = true) :
    (insertSorted a l).Pairwise fun x y => leStats x y = true := by
  induction l with
  | nil => simp [insertSorted]
  | cons b t ih =>
    rcases List.pairwise_cons.1 hl with ⟨hb, ht⟩
    by_cases h : leStats a b = true
    · simp only [insertSorted, if_pos h]
      refine List.pairwise_cons.2 ⟨?_, hl⟩
      intro x hx
      rcases List.mem_cons.1 hx with rfl | hxt
      · exact h
      · exact leStats_trans h (hb x hxt)
    · simp only [insertSorted, if_neg h]
      refine List.pairwise_cons.2 ⟨?_, ih ht⟩
      intro x hx
      have hx' := (insertSorted_perm a t).mem_iff.1 hx
      rcases List.mem_cons.1 hx' with rfl | hxt
      · rcases leStats_total x b with hxb | hbx
        · exact absurd hxb h
        · exact hbx
      · exact hb x hxt

theorem pairwise_sortStats (l : List ServerStats) :
    (sortStats l).Pairwise fun x y => leStats x y = true := by
  induction l with
  | nil => simp [sortStats]
  | cons a t ih => exact pairwise_insertSorted a (sortStats t) ih

theorem lookupStats_map_finalize (acc : List ServerStats) (s : String) :
    lookupStats (acc.map finalizeStats) s = (lookupStats acc s).map finalizeStats := by
  induction acc with
  | nil => rfl
  | cons e t ih =>
    by_cases h : e.server = s
    · simp [lookupStats, finalizeStats_server, h]
    · simp [lookupStats, finalizeStats_server, h, ih]

theorem keys_map_finalize (acc : List ServerStats) :
    (acc.map finalizeStats).map (fun e => e.server) = acc.map (fun e => e.server) := by
  induction acc with
  | nil => rfl
  | cons e t ih => simp [finalizeStats_server, ih]

theorem keys_calculateStats_nodup (l : List Result) :
    ((calculateStats l).map (fun e => e.server)).Nodup := by
  have hperm := (sortStats_perm ((buildStats l).map finalizeStats)).map
    (fun e => e.server)
  refine hperm.nodup_iff.2 ?_
  rw [keys_map_finalize]
  exact keys_buildStats_nodup l

theorem lookupStats_calculateStats (l : List Result) (s : String) :
    lookupStats (calculateStats l) s =
      if l.any (fun r => decide (r.server = s)) then
        some (finalizeStats (groupedStats l s))
      else none := by
  have hnd : (((buildStats l).map finalizeStats).map (fun e => e.server)).Nodup := by
    rw [keys_map_finalize]; exact keys_buildStats_nodup l
  have hs : ((sortStats ((buildStats l).map finalizeStats)).map
      (fun e => e.server)).Nodup := by
    refine ((sortStats_perm _).map (fun e => e.server)).nodup_iff.2 hnd
  have h1 : lookupStats (calculateStats l) s =
      lookupStats ((buildStats l).map finalizeStats) s :=
    lookupStats_perm (sortStats_perm _) hs s
  rw [calculateStats] at h1 ⊢
  rw [h1, lookupStats_map_finalize, lookupStats_buildStats]
  by_cases h : l.any (fun r => decide (r.server = s)) = true <;> simp [h]

end DnsBench

namespace DnsBench

/-! Conservation and progress of the worker-pool engine. -/

theorem jobOf_measureJob (probe : Probe) (j : Job) :
    jobOf (measureJob probe j) = j := rfl

theorem stateCount_step {cfg : EngineConfig} {probe : Probe}
    {s t : EngineState} (h : EngineStep cfg probe s t) (p : Job → Bool) :
    stateCount p t = stateCount p s := by
  cases h with
  | enqueue j rest q w r hcap =>
    simp [stateCount, List.countP_append, List.countP_cons]
    omega
  | close q w r => rfl
  | take pnd j q w r c hw =>
    simp [stateCount, List.countP_cons]
    omega
  | finish pnd q w₁ j w₂ r c =>
    simp [stateCount, List.countP_append, List.countP_cons, jobOf_measureJob]
    omega

theorem stateCount_steps {cfg : EngineConfig} {probe : Probe}
    {s t : EngineState} (h : Steps cfg probe s t) (p : Job → Bool) :
    stateCount p t = stateCount p s := by
  induction h with
  | refl => rfl
  | tail _ hstep ih => rw [stateCount_step hstep, ih]

theorem steps_closed_pending {cfg : EngineConfig} {probe : Probe}
    {st : EngineState} (h : Steps cfg probe (initState cfg) st) :
    st.closed = true → st.pending = [] := by
  induction h with
  | refl => intro hc; simp [initState] at hc
  | tail _ hstep ih =>
    cases hstep with
    | enqueue j rest q w r hcap => intro hc; simp at hc
    | close q w r => intro _; rfl
    | take pnd j q w r c hw => exact ih
    | finish pnd q w₁ j w₂ r c => exact ih

theorem steps_results_form {cfg : EngineConfig} {probe : Probe}
    {st : EngineState} (h : Steps cfg probe (initState cfg) st) :
    ∀ r ∈ st.results,
      r.duration = (probe r.server r.domain).1 ∧
      r.error = (probe r.server r.domain).2 := by
  induction h with
  | refl => intro r hr; simp [initState] at hr
  | tail _ hstep ih =>
    cases hstep with
    | enqueue j rest q w r hcap => exact ih
    | close q w r => exact ih
    | take pnd j q w r c hw => exact ih
    | finish pnd q w₁ j w₂ r c =>
      intro x hx
      rcases List.mem_append.1 hx with hx | hx
      · exact ih x hx
      · rcases List.mem_singleton.1 hx with rfl
        exact ⟨rfl, rfl⟩

theorem terminal_results_count {cfg : EngineConfig} {probe : Probe}
    {st : EngineState} (hsteps : Steps cfg probe (initState cfg) st)
    (hterm : Terminal st) (p : Job → Bool) :
    st.results.countP (fun r => p (jobOf r)) = (iterationJobs cfg).countP p := by
  have h := stateCount_steps hsteps p
  rcases hterm with ⟨h1, h2, h3, _⟩
  simp [stateCount, initState, h1, h2, h3] at h
  exact h

theorem countP_range_flatMap {α : Type} (L : List α) (p : α → Bool) (n : Nat) :
    ((List.range n).flatMap fun _ => L).countP p = n * L.countP p := by
  induction n with
  | zero => simp
  | succ n ih =>
    rw [List.range_succ, List.flatMap_append, List.countP_append, ih]
    simp [Nat.succ_mul]

theorem length_range_flatMap {α : Type} (L : List α) (n : Nat) :
    ((List.range n).flatMap fun _ => L).length = n * L.length := by
  induction n with
  | zero => simp
  | succ n ih =>
    rw [List.range_succ, List.flatMap_append, List.length_append, ih]
    simp [Nat.succ_mul]

theorem length_crossJobs (servers domains : List String) :
    (crossJobs servers domains).length = servers.length * domains.length := by
  induction servers with
  | nil => simp [crossJobs]
  | cons a t ih =>
    simp only [crossJobs, List.flatMap_cons, List.length_append, List.length_map,
      List.length_cons] at *
    rw [ih]
    ring

theorem length_iterationJobs (cfg : EngineConfig) :
    (iterationJobs cfg).length =
      cfg.servers.length * cfg.domains.length * cfg.iterations := by
  rw [iterationJobs, length_range_flatMap, length_crossJobs]
  ring

theorem countP_eq_one_of_nodup {x : String} {l : List String}
    (hnd : l.Nodup) (hx : x ∈ l) :
    l.countP (fun y => decide (y = x)) = 1 := by
  induction l with
  | nil => cases hx
  | cons a t ih =>
    have hnd' := List.nodup_cons.1 hnd
    by_cases h : a = x
    · subst h
      have h0 : t.countP (fun y => decide (y = a)) = 0 :=
        List.countP_eq_zero.2 fun y hy => by
          simp only [decide_eq_true_eq]
          intro hc
          exact hnd'.1 (hc ▸ hy)
      simp [List.countP_cons, h0]
    · have hxt : x ∈ t := by
        rcases List.mem_cons.1 hx with h1 | h1
        · exact absurd h1.symm h
        · exact h1
      simp [List.countP_cons, ih hnd'.2 hxt, h]

theorem countP_crossJobs (servers domains : List String) (s d : String) :
    (crossJobs servers domains).countP
        (fun j => decide (j = { server := s, domain := d })) =
      servers.countP (fun x => decide (x = s)) *
        domains.countP (fun x => decide (x = d)) := by
  induction servers with
  | nil => simp [crossJobs]
  | cons a t ih =>
    simp only [crossJobs, List.flatMap_cons, List.countP_append, List.countP_map,
      List.countP_cons] at *
    rw [ih]
    by_cases h : a = s
    · subst h
      have hcong : domains.countP
          ((fun j => decide (j = ({ server := a, domain := d } : Job))) ∘
            fun x => ({ server := a, domain := x } : Job)) =
          domains.countP (fun x => decide (x = d)) := by
        refine List.countP_congr fun x _ => ?_
        simp [Job.mk.injEq]
      rw [hcong]
      simp
      ring
    · have hzero : domains.countP
          ((fun j => decide (j = ({ server := s, domain := d } : Job))) ∘
            fun x => ({ server := a, domain := x } : Job)) = 0 := by
        refine List.countP_eq_zero.2 fun x _ => ?_
        simp [Job.mk.injEq, h]
      rw [hzero]
      simp [h]

end DnsBench

namespace DnsBench

/-! A concrete fair schedule, and progress of the engine. -/

theorem reach_terminal (cfg : EngineConfig) (probe : Probe)
    (hc : 1 ≤ cfg.concurrency) :
    ∀ (jobs : List Job) (res : List Result),
      Steps cfg probe
        { pending := jobs, queue := [], inflight := [], results := res,
          closed := false }
        { pending := [], queue := [], inflight := [],
          results := res ++ jobs.map (measureJob probe), closed := true } := by
  intro jobs
  induction jobs with
  | nil =>
    intro res
    have hstep := @EngineStep.close cfg probe [] [] res
    simpa using Relation.ReflTransGen.single hstep
  | cons j rest ih =>
    intro res
    have hcap : (0 : Nat) < bufferSize cfg := by
      have : (10 : Nat) ≤ cfg.concurrency * 10 := by omega
      simpa [bufferSize] using by omega
    refine Relation.ReflTransGen.head
      (EngineStep.enqueue j rest [] [] res (by simpa [bufferSize] using hcap)) ?_
    refine Relation.ReflTransGen.head
      (EngineStep.take rest j [] [] res false (by simpa using hc)) ?_
    refine Relation.ReflTransGen.head
      (EngineStep.finish rest [] [] j [] res false) ?_
    have htail := ih (res ++ [measureJob probe j])
    simpa [List.append_assoc] using htail

theorem engine_progress {cfg : EngineConfig} {probe : Probe}
    {st : EngineState} (hc : 1 ≤ cfg.concurrency)
    (hcp : st.closed = true → st.pending = [])
    (hnt : ¬ Terminal st) :
    ∃ st', EngineStep cfg probe st st' := by
  obtain ⟨pnd, q, w, r, c⟩ := st
  cases c with
  | true =>
    have hp : pnd = [] := hcp rfl
    subst hp
    cases q with
    | cons j q' =>
      by_cases hw : w.length < cfg.concurrency
      · exact ⟨_, EngineStep.take [] j q' w r true hw⟩
      · cases w with
        | nil => exact absurd (by simpa using hc) (by simpa using hw)
        | cons x w' => exact ⟨_, EngineStep.finish [] (j :: q') [] x w' r true⟩
    | nil =>
      cases w with
      | cons x w' => exact ⟨_, EngineStep.finish [] [] [] x w' r true⟩
      | nil => exact absurd ⟨rfl, rfl, rfl, rfl⟩ hnt
  | false =>
    cases pnd with
    | cons j rest =>
      by_cases hq : q.length < bufferSize cfg
      · exact ⟨_, EngineStep.enqueue j rest q w r hq⟩
      · cases q with
        | nil =>
          exact absurd (by simp [bufferSize]; omega) hq
        | cons x q' =>
          by_cases hw : w.length < cfg.concurrency
          · exact ⟨_, EngineStep.take (j :: rest) x q' w r false hw⟩
          · cases w with
            | nil => exact absurd (by simpa using hc) (by simpa using hw)
            | cons y w' =>
              exact ⟨_, EngineStep.finish (j :: rest) (x :: q') [] y w' r false⟩
    | nil => exact ⟨_, EngineStep.close q w r⟩

/-! Shape of the iteration-mode job sequence. -/

theorem iterationJobs_blocks (cfg : EngineConfig) :
    iterationJobs cfg =
      (List.replicate cfg.iterations (crossJobs cfg.servers cfg.domains)).flatten := by
  rw [iterationJobs]
  generalize crossJobs cfg.servers cfg.domains = L
  induction cfg.iterations with
  | zero => simp
  | succ n ih =>
    rw [List.range_succ, List.flatMap_append, ih, List.replicate_succ',
      List.flatten_append]
    simp

theorem crossJobs_getElem (servers domains : List String) (si di : Nat)
    (hs : si < servers.length) (hd : di < domains.length) :
    (crossJobs servers domains)[si * domains.length + di]? =
      some { server := servers[si], domain := domains[di] } := by
  induction servers generalizing si with
  | nil => simp at hs
  | cons a t ih =>
    cases si with
    | zero =>
      have hlt : 0 * domains.length + di <
          (domains.map fun d => ({ server := a, domain := d } : Job)).length := by
        simpa using hd
      rw [crossJobs, List.flatMap_cons, List.getElem?_append, if_pos hlt]
      simp [List.getElem?_map, List.getElem?_eq_getElem hd]
    | succ si' =>
      have hs' : si' < t.length := by simpa using hs
      have hge : ¬ (si' + 1) * domains.length + di <
          (domains.map fun d => ({ server := a, domain := d } : Job)).length := by
        simp only [List.length_map]
        have : domains.length ≤ (si' + 1) * domains.length + di := by
          have h1 : domains.length ≤ (si' + 1) * domains.length :=
            Nat.le_mul_of_pos_left _ (by omega)
          omega
        omega
      rw [crossJobs, List.flatMap_cons, List.getElem?_append, if_neg hge]
      have harith : (si' + 1) * domains.length + di -
          (domains.map fun d => ({ server := a, domain := d } : Job)).length =
          si' * domains.length + di := by
        simp only [List.length_map]
        ring_nf
        omega
      rw [harith]
      have := ih si' hs'
      rw [crossJobs] at this
      simpa using this

end DnsBench

namespace DnsBench

/-! Prefix dispatch, grouping field shortcuts, and extrema of folds. -/

theorem hasPre_tls_not_https (s : String) (h : hasPre s "tls://" = true) :
    hasPre s "https://" = false := by
  unfold hasPre at *
  have hd1 : "tls://".data = 't' :: 'l' :: 's' :: ':' :: '/' :: '/' :: [] := rfl
  have hd2 : "https://".data =
      'h' :: 't' :: 't' :: 'p' :: 's' :: ':' :: '/' :: '/' :: [] := rfl
  rw [hd1] at h
  rw [hd2]
  cases hs : s.data with
  | nil => rw [hs] at h; simp [listHasPre] at h
  | cons c cs =>
    rw [hs] at h
    simp only [listHasPre, Bool.and_eq_true, beq_iff_eq] at h
    rcases h with ⟨rfl, -⟩
    simp [listHasPre]

theorem groupedStats_total (l : List Result) (s : String) :
    (groupedStats l s).total = (l.filter fun r => decide (r.server = s)).length := by
  simp [groupedStats, foldl_updateStats_total, initStats]

theorem groupedStats_errors (l : List Result) (s : String) :
    (groupedStats l s).errors =
      (l.filter fun r => decide (r.server = s)).countP (fun r => r.error.isSome) := by
  simp [groupedStats, foldl_updateStats_errors, initStats]

theorem groupedStats_success (l : List Result) (s : String) :
    (groupedStats l s).success =
      (l.filter fun r => decide (r.server = s)).countP (fun r => r.error.isNone) := by
  simp [groupedStats, foldl_updateStats_success, initStats]

theorem groupedStats_totalTime (l : List Result) (s : String) :
    (groupedStats l s).totalTime =
      (successDurations (l.filter fun r => decide (r.server = s))).sum := by
  simp [groupedStats, foldl_updateStats_totalTime, initStats]

theorem groupedStats_min (l : List Result) (s : String) :
    (groupedStats l s).min =
      (successDurations (l.filter fun r => decide (r.server = s))).foldl min hourNs := by
  simp [groupedStats, foldl_updateStats_min, initStats]

theorem groupedStats_max (l : List Result) (s : String) :
    (groupedStats l s).max =
      (successDurations (l.filter fun r => decide (r.server = s))).foldl max 0 := by
  simp [groupedStats, foldl_updateStats_max, initStats]

theorem length_successDurations (m : List Result) :
    (successDurations m).length = m.countP (fun r => r.error.isNone) := by
  simp [successDurations, List.countP_eq_length_filter]

theorem countP_isNone_add_isSome (m : List Result) :
    m.countP (fun r => r.error.isNone) + m.countP (fun r => r.error.isSome) =
      m.length := by
  induction m with
  | nil => rfl
  | cons r t ih =>
    cases h : r.error <;> simp [List.countP_cons, h] <;> omega

theorem foldl_min_spec :
    ∀ (t : List Nat) (x a : Nat), ∃ m, m ∈ x :: t ∧ (∀ y ∈ x :: t, m ≤ y) ∧
      (x :: t).foldl min a = min a m := by
  intro t
  induction t with
  | nil =>
    intro x a
    refine ⟨x, by simp, by simp, by simp⟩
  | cons z t ih =>
    intro x a
    obtain ⟨m, hm, hb, he⟩ := ih z (min a x)
    refine ⟨min x m, ?_, ?_, ?_⟩
    · rcases le_total x m with h | h
      · simp [min_eq_left h]
      · rw [min_eq_right h]
        exact List.mem_cons_of_mem x hm
    · intro y hy
      rcases List.mem_cons.1 hy with hxy | hyt
      · rw [hxy]
        exact min_le_left x m
      · exact le_trans (min_le_right x m) (hb y hyt)
    · have hstep : (x :: z :: t).foldl min a = (z :: t).foldl min (min a x) := rfl
      rw [hstep, he]
      omega

theorem foldl_max_spec :
    ∀ (t : List Nat) (x a : Nat), ∃ m, m ∈ x :: t ∧ (∀ y ∈ x :: t, y ≤ m) ∧
      (x :: t).foldl max a = max a m := by
  intro t
  induction t with
  | nil =>
    intro x a
    exact ⟨x, by simp, by simp, by simp⟩
  | cons z t ih =>
    intro x a
    obtain ⟨m, hm, hb, he⟩ := ih z (max a x)
    refine ⟨max x m, ?_, ?_, ?_⟩
    · rcases le_total x m with h | h
      · rw [max_eq_right h]
        exact List.mem_cons_of_mem x hm
      · simp [max_eq_left h]
    · intro y hy
      rcases List.mem_cons.1 hy with hxy | hyt
      · rw [hxy]
        exact le_max_left x m
      · exact le_trans (hb y hyt) (le_max_right x m)
    · have hstep : (x :: z :: t).foldl max a = (z :: t).foldl max (max a x) := rfl
      rw [hstep, he]
      omega

theorem updateStats_comm (b : ServerStats) (r1 r2 : Result) :
    updateStats (updateStats b r1) r2 = updateStats (updateStats b r2) r1 := by
  cases h1 : r1.error <;> cases h2 : r2.error <;> simp [updateStats, h1, h2]
  refine ⟨?_, ?_, by omega⟩ <;> split_ifs <;> omega

end DnsBench

namespace DnsBench

/-- C2 (code bug): in WallClock mode with an empty server list or an empty
domain list, the enqueue goroutine's sampling step does not emit zero jobs
and finish cleanly — it hits the `rand.Intn` panic ("invalid argument to
Intn", modelled as the error value of `intN`), for every raw random draw.
The spec requires such a run to complete with zero jobs and no panic. -/
theorem durationSampler_empty_list_panics (servers domains : List String)
    (rs rd : Nat) :
    sampleDurationJob [] domains rs rd =
      Except.error "invalid argument to Intn" ∧
    sampleDurationJob servers [] rs rd =
      Except.error "invalid argument to Intn" := by
  constructor
  · rfl
  · unfold sampleDurationJob intN
    by_cases h : servers.length = 0 <;> simp [h] <;> rfl

/-- C7 counterexample: with one server, two domains and two iterations the
source emits the cross-product block twice (iteration outermost), not each
(server, domain) pair twice in a row (iteration innermost) as the claim
states. -/
theorem iterationJobs_order_counterexample :
    iterationJobs
        { servers := ["s"], domains := ["a", "b"], iterations := 2,
          concurrency := 1 } ≠
      specClaimedJobOrder ["s"] ["a", "b"] 2 := by decide

/-- C7 (amended): in Iteration mode the Job Source emits the full
cross-product servers × domains — in server-major, then-domain-minor order,
as the indexing law shows — and repeats that whole cross-product sequence
n times as consecutive blocks, the iteration counter being the outermost
loop. -/
theorem iterationJobs_order (cfg : EngineConfig) (si di : Nat)
    (hs : si < cfg.servers.length) (hd : di < cfg.domains.length) :
    iterationJobs cfg =
      (List.replicate cfg.iterations (crossJobs cfg.servers cfg.domains)).flatten ∧
    (crossJobs cfg.servers cfg.domains)[si * cfg.domains.length + di]? =
      some { server := cfg.servers[si], domain := cfg.domains[di] } :=
  ⟨iterationJobs_blocks cfg, crossJobs_getElem _ _ si di hs hd⟩

/-- Witness for the amended C7 at a two-server configuration. -/
theorem iterationJobs_order_witness :
    iterationJobs
        { servers := ["a", "b"], domains := ["x"], iterations := 2,
          concurrency := 1 } =
      (List.replicate 2 (crossJobs ["a", "b"] ["x"])).flatten ∧
    (crossJobs ["a", "b"] ["x"])[1 * 1 + 0]? =
      some { server := "b", domain := "x" } := by
  have h := iterationJobs_order
    { servers := ["a", "b"], domains := ["x"], iterations := 2,
      concurrency := 1 } 1 0 (by decide) (by decide)
  exact ⟨h.1, h.2⟩

/-- C9: `Client.Measure` selects the transport by prefix: `https://`
identifiers are queried over HTTPS as-is; `tls://` identifiers are queried
over TLS against the trimmed remainder, with `:853` appended exactly when
the remainder has no colon; all other identifiers are queried as plain DNS
with `:53` appended exactly when the identifier has no colon. -/
theorem measure_protocol_dispatch (serverAddr : String) :
    (hasPre serverAddr "https://" = true →
      protocolDispatch serverAddr = .doh serverAddr) ∧
    (hasPre serverAddr "tls://" = true →
      protocolDispatch serverAddr =
        .dot (if containsChar (trimPre serverAddr "tls://") ':' then
                trimPre serverAddr "tls://"
              else trimPre serverAddr "tls://" ++ ":853")) ∧
    (hasPre serverAddr "https://" = false → hasPre serverAddr "tls://" = false →
      protocolDispatch serverAddr =
        .udp (if containsChar serverAddr ':' then serverAddr
              else serverAddr ++ ":53")) := by
  refine ⟨?_, ?_, ?_⟩
  · intro h
    simp [protocolDispatch, h]
  · intro h
    have hh := hasPre_tls_not_https serverAddr h
    simp [protocolDispatch, h, hh]
  · intro h1 h2
    simp [protocolDispatch, h1, h2]

/-- Witness for C9 at one concrete address of each of the three forms. -/
theorem measure_protocol_dispatch_witness :
    protocolDispatch "https://dns.google/dns-query" =
      DnsQuery.doh "https://dns.google/dns-query" ∧
    protocolDispatch "tls://1.1.1.1" = DnsQuery.dot "1.1.1.1:853" ∧
    protocolDispatch "8.8.8.8" = DnsQuery.udp "8.8.8.8:53" := by
  refine ⟨(measure_protocol_dispatch _).1 (by decide), ?_, ?_⟩
  · exact ((measure_protocol_dispatch "tls://1.1.1.1").2.1 (by decide)).trans
      (by decide)
  · exact ((measure_protocol_dispatch "8.8.8.8").2.2 (by decide) (by decide)).trans
      (by decide)

end DnsBench

namespace DnsBench

/-- C3: permuting the Measurement Record list does not change any server's
reported statistics — every field of the per-server entry, loss percentage
included, is the same under any arrival order. -/
theorem calculateStats_perm_invariant (l l' : List Result) (hp : l.Perm l') :
    ∀ s, lookupStats (calculateStats l) s = lookupStats (calculateStats l') s := by
  intro s
  rw [lookupStats_calculateStats, lookupStats_calculateStats]
  have hany : l.any (fun r => decide (r.server = s)) =
      l'.any (fun r => decide (r.server = s)) := by
    by_cases h : l.any (fun r => decide (r.server = s)) = true
    · rcases List.any_eq_true.1 h with ⟨r, hr, hpr⟩
      have h' : l'.any (fun r => decide (r.server = s)) = true :=
        List.any_eq_true.2 ⟨r, hp.mem_iff.1 hr, hpr⟩
      rw [h, h']
    · have h' : ¬ l'.any (fun r => decide (r.server = s)) = true := by
        intro hc
        rcases List.any_eq_true.1 hc with ⟨r, hr, hpr⟩
        exact h (List.any_eq_true.2 ⟨r, hp.mem_iff.2 hr, hpr⟩)
      rw [Bool.not_eq_true] at h h'
      rw [h, h']
  have hgrp : groupedStats l s = groupedStats l' s := by
    unfold groupedStats
    haveI hrc : RightCommutative updateStats := ⟨updateStats_comm⟩
    exact @List.Perm.foldl_eq _ _ updateStats _ _ hrc
      (hp.filter (fun r => decide (r.server = s))) (initStats s)
  rw [hany, hgrp]

/-- Witness for C3 on a two-record swap. -/
theorem calculateStats_perm_invariant_witness :
    lookupStats (calculateStats
        [{ server := "b", domain := "d", duration := 3, error := some "x" },
         { server := "a", domain := "d", duration := 7, error := none }]) "a" =
      lookupStats (calculateStats
        [{ server := "a", domain := "d", duration := 7, error := none },
         { server := "b", domain := "d", duration := 3, error := some "x" }]) "a" :=
  calculateStats_perm_invariant _ _
    (List.Perm.swap
      { server := "a", domain := "d", duration := 7, error := none }
      { server := "b", domain := "d", duration := 3, error := some "x" } []) "a"

/-- C4: in the ranked output of `calculateStats`, an entry with at least one
success is placed before every entry with zero successes, and among entries
with successes a strictly lower average latency is placed first. -/
theorem calculateStats_ranking (l : List Result) (i j : Nat)
    (hi : i < (calculateStats l).length) (hj : j < (calculateStats l).length) :
    ((0 < (calculateStats l)[i].success ∧ (calculateStats l)[j].success = 0) →
      i < j) ∧
    ((0 < (calculateStats l)[i].success ∧ 0 < (calculateStats l)[j].success ∧
        (calculateStats l)[i].avg < (calculateStats l)[j].avg) → i < j) := by
  have hpw : (calculateStats l).Pairwise (fun x y => leStats x y = true) := by
    rw [calculateStats]
    exact pairwise_sortStats _
  have hget := List.pairwise_iff_getElem.1 hpw
  constructor
  · rintro ⟨hA, hB⟩
    by_contra hij
    rcases Nat.lt_or_ge j i with hji | hji
    · have hle := hget j i hj hi hji
      have hlt : lessStats (calculateStats l)[i] (calculateStats l)[j] = true := by
        simp [lessStats, hA, hB]
      simp [leStats, hlt] at hle
    · have heq : i = j := by omega
      have hee : (calculateStats l)[i] = (calculateStats l)[j] := by
        subst heq; rfl
      rw [hee] at hA
      omega
  · rintro ⟨hA, hB, havg⟩
    by_contra hij
    rcases Nat.lt_or_ge j i with hji | hji
    · have hle := hget j i hj hi hji
      have hB0 : ¬ (calculateStats l)[j].success = 0 := by omega
      have hA0 : ¬ (calculateStats l)[i].success = 0 := by omega
      have hlt : lessStats (calculateStats l)[i] (calculateStats l)[j] = true := by
        simp [lessStats, hB0, hA0, havg]
      simp [leStats, hlt] at hle
    · have heq : i = j := by omega
      have hee : (calculateStats l)[i] = (calculateStats l)[j] := by
        subst heq; rfl
      rw [hee] at havg
      omega

/-- Witness for C4: a successful server ranks before a failing one. -/
theorem calculateStats_ranking_witness : (0 : Nat) < 1 :=
  (calculateStats_ranking
    [{ server := "b", domain := "d", duration := 3, error := some "x" },
     { server := "a", domain := "d", duration := 7, error := none }]
    0 1 (by decide) (by decide)).1 (by decide)

end DnsBench

namespace DnsBench

/-- C5 counterexample: `calculateStats` initialises the running minimum to
one hour, so a single successful record of two hours is reported with
`Min = 1h`, not with the minimum successful elapsed time (2h). -/
theorem calculateStats_min_sentinel_counterexample :
    successDurations
        [({ server := "a", domain := "d", duration := 7200000000000,
            error := none } : Result)] = [7200000000000] ∧
    (lookupStats (calculateStats
        [{ server := "a", domain := "d", duration := 7200000000000,
           error := none }]) "a").map (fun e => e.min) =
      some 3600000000000 ∧
    (3600000000000 : Nat) ≠ 7200000000000 :=
  ⟨rfl, by decide, by decide⟩

/-- C5 (amended): for a server group with at least one success, Total is the
number of records of that server, Errors counts its failure records, Success
is Total minus Errors, Avg is the sum of successful elapsed times divided by
the success count, Max is the maximum over successful records, and Min is
the minimum over the successful records capped by the one-hour sentinel
(`min hourNs ·`); failure records never influence Min, Max or Avg. -/
theorem calculateStats_group_fields (l : List Result) (s : String)
    (hp : 0 < ((lookupStats (calculateStats l) s).map (fun e => e.success)).getD 0) :
    (lookupStats (calculateStats l) s).map (fun e => e.total) =
      some (l.filter fun r => decide (r.server = s)).length ∧
    (lookupStats (calculateStats l) s).map (fun e => e.errors) =
      some ((l.filter fun r => decide (r.server = s)).countP
        fun r => r.error.isSome) ∧
    (lookupStats (calculateStats l) s).map (fun e => e.success) =
      some ((l.filter fun r => decide (r.server = s)).length -
        (l.filter fun r => decide (r.server = s)).countP
          fun r => r.error.isSome) ∧
    (lookupStats (calculateStats l) s).map (fun e => e.avg) =
      some ((successDurations (l.filter fun r => decide (r.server = s))).sum /
        (successDurations (l.filter fun r => decide (r.server = s))).length) ∧
    (∃ mx ∈ successDurations (l.filter fun r => decide (r.server = s)),
      (∀ x ∈ successDurations (l.filter fun r => decide (r.server = s)), x ≤ mx) ∧
      (lookupStats (calculateStats l) s).map (fun e => e.max) = some mx) ∧
    (∃ mn ∈ successDurations (l.filter fun r => decide (r.server = s)),
      (∀ x ∈ successDurations (l.filter fun r => decide (r.server = s)), mn ≤ x) ∧
      (lookupStats (calculateStats l) s).map (fun e => e.min) =
        some (min hourNs mn)) := by
  rcases hlook : lookupStats (calculateStats l) s with _ | e
  · rw [hlook] at hp
    simp at hp
  · have hes : 0 < e.success := by
      rw [hlook] at hp
      simpa using hp
    have hchar := lookupStats_calculateStats l s
    rw [hlook] at hchar
    by_cases hany : l.any (fun r => decide (r.server = s)) = true
    · rw [if_pos hany] at hchar
      have he : e = finalizeStats (groupedStats l s) := Option.some.inj hchar
      have hsuccg : (groupedStats l s).success =
          (successDurations (l.filter fun r => decide (r.server = s))).length := by
        rw [groupedStats_success, length_successDurations]
      have hsg : 0 < (groupedStats l s).success := by
        rw [he, finalizeStats_success] at hes
        exact hes
      have hsd0 : ¬ successDurations (l.filter fun r => decide (r.server = s)) = [] := by
        intro hc
        rw [hsuccg, hc] at hsg
        simp at hsg
      obtain ⟨x, t, hxt⟩ : ∃ x t,
          successDurations (l.filter fun r => decide (r.server = s)) = x :: t := by
        cases hc : successDurations (l.filter fun r => decide (r.server = s)) with
        | nil => exact absurd hc hsd0
        | cons x t => exact ⟨x, t, rfl⟩
      refine ⟨?_, ?_, ?_, ?_, ?_, ?_⟩
      · simp [he, finalizeStats_total, groupedStats_total]
      · simp [he, finalizeStats_errors, groupedStats_errors]
      · have hsv : e.success = (l.filter fun r => decide (r.server = s)).countP
            (fun r => r.error.isNone) := by
          rw [he, finalizeStats_success, groupedStats_success]
        have hadd := countP_isNone_add_isSome (l.filter fun r => decide (r.server = s))
        simp only [Option.map_some', Option.some.injEq, hsv]
        omega
      · have hav : e.avg = (groupedStats l s).totalTime / (groupedStats l s).success := by
          rw [he, finalizeStats_avg, if_pos hsg]
        simp only [Option.map_some', Option.some.injEq, hav,
          groupedStats_totalTime, hsuccg]
      · obtain ⟨m, hm, hb, hfold⟩ := foldl_max_spec t x 0
        refine ⟨m, by rw [hxt]; exact hm, ?_, ?_⟩
        · intro y hy
          rw [hxt] at hy
          exact hb y hy
        · have hmx : e.max = m := by
            rw [he, finalizeStats_max, groupedStats_max, hxt, hfold]
            omega
          simp [hmx]
      · obtain ⟨m, hm, hb, hfold⟩ := foldl_min_spec t x hourNs
        refine ⟨m, by rw [hxt]; exact hm, ?_, ?_⟩
        · intro y hy
          rw [hxt] at hy
          exact hb y hy
        · have hmn : e.min = min hourNs m := by
            have hsne : ¬ (groupedStats l s).success = 0 := by omega
            rw [he, finalizeStats_min, if_neg hsne, groupedStats_min, hxt, hfold]
          simp [hmn]
    · rw [if_neg hany] at hchar
      exact absurd hchar (by simp)

/-- Witness for the amended C5: the Total clause at a one-record input. -/
theorem calculateStats_group_fields_witness :
    (lookupStats (calculateStats
        [{ server := "a", domain := "d", duration := 10, error := none }]) "a").map
      (fun e => e.total) =
      some
        (([({ server := "a", domain := "d", duration := 10, error := none } : Result)].filter
          fun r => decide (r.server = "a")).length) :=
  (calculateStats_group_fields _ "a" (by decide)).1

/-- C6: a server whose records contain zero successes is reported with
`Min = 0` and a loss percentage of 100. -/
theorem calculateStats_zero_success (l : List Result) (s : String)
    (h : (lookupStats (calculateStats l) s).map (fun e => e.success) = some 0) :
    (lookupStats (calculateStats l) s).map (fun e => e.min) = some 0 ∧
    (lookupStats (calculateStats l) s).map (fun e => e.lossPct) = some 100 := by
  rcases hlook : lookupStats (calculateStats l) s with _ | e
  · rw [hlook] at h
    simp at h
  · have hes : e.success = 0 := by
      rw [hlook] at h
      simpa using h
    have hchar := lookupStats_calculateStats l s
    rw [hlook] at hchar
    by_cases hany : l.any (fun r => decide (r.server = s)) = true
    · rw [if_pos hany] at hchar
      have he : e = finalizeStats (groupedStats l s) := Option.some.inj hchar
      have hgs : (groupedStats l s).success = 0 := by
        rw [he, finalizeStats_success] at hes
        exact hes
      have hiso := countP_isNone_add_isSome (l.filter fun r => decide (r.server = s))
      have hcn : (l.filter fun r => decide (r.server = s)).countP
          (fun r => r.error.isNone) = 0 := by
        rw [groupedStats_success] at hgs
        exact hgs
      have herr : (groupedStats l s).errors = (groupedStats l s).total := by
        rw [groupedStats_errors, groupedStats_total]
        omega
      have htpos : 0 < (groupedStats l s).total := by
        rw [groupedStats_total]
        rcases List.any_eq_true.1 hany with ⟨r, hr, hpr⟩
        have hmem : r ∈ l.filter fun x => decide (x.server = s) :=
          List.mem_filter.2 ⟨hr, hpr⟩
        exact List.length_pos.2 (List.ne_nil_of_mem hmem)
      constructor
      · simp [he, finalizeStats_min, hgs]
      · simp only [Option.map_some', Option.some.injEq]
        rw [he, finalizeStats_lossPct, herr]
        have hne : ((groupedStats l s).total : ℚ) ≠ 0 := by
          exact_mod_cast Nat.pos_iff_ne_zero.1 htpos
        rw [div_self hne, one_mul]
    · rw [if_neg hany] at hchar
      exact absurd hchar (by simp)

/-- Witness for C6 at a single failing record. -/
theorem calculateStats_zero_success_witness :
    (lookupStats (calculateStats
        [{ server := "a", domain := "d", duration := 5, error := some "x" }]) "a").map
      (fun e => e.min) = some 0 ∧
    (lookupStats (calculateStats
        [{ server := "a", domain := "d", duration := 5, error := some "x" }]) "a").map
      (fun e => e.lossPct) = some 100 :=
  calculateStats_zero_success _ "a" (by decide)

end DnsBench

namespace DnsBench

/-- C1: in Iteration mode, any completed schedule of the engine collects
exactly S × D × n Measurement Records, and each (server, domain) pair of a
duplicate-free configuration is answered exactly n times — independently of
the probe's successes and failures. -/
theorem iterationRun_record_counts (cfg : EngineConfig) (probe : Probe)
    (st : EngineState) (_hconc : 1 ≤ cfg.concurrency)
    (hns : cfg.servers.Nodup) (hnd : cfg.domains.Nodup)
    (hsteps : Steps cfg probe (initState cfg) st) (hterm : Terminal st) :
    st.results.length =
      cfg.servers.length * cfg.domains.length * cfg.iterations ∧
    ∀ s ∈ cfg.servers, ∀ d ∈ cfg.domains,
      st.results.countP (fun r => decide (r.server = s ∧ r.domain = d)) =
        cfg.iterations := by
  constructor
  · have h := terminal_results_count hsteps hterm (fun _ => true)
    have h1 : st.results.countP (fun r => (fun _ : Job => true) (jobOf r)) =
        st.results.length := by simp
    have h2 : (iterationJobs cfg).countP (fun _ => true) =
        (iterationJobs cfg).length := by simp
    rw [h1, h2, length_iterationJobs] at h
    exact h
  · intro s hs d hd
    have h := terminal_results_count hsteps hterm
      (fun j => decide (j = { server := s, domain := d }))
    have h3 : (iterationJobs cfg).countP
        (fun j => decide (j = { server := s, domain := d })) = cfg.iterations := by
      show ((List.range cfg.iterations).flatMap
        fun _ => crossJobs cfg.servers cfg.domains).countP
          (fun j => decide (j = { server := s, domain := d })) = cfg.iterations
      rw [countP_range_flatMap, countP_crossJobs,
        countP_eq_one_of_nodup hns hs, countP_eq_one_of_nodup hnd hd]
      simp
    rw [h3] at h
    have hcong : st.results.countP
        (fun r => decide (jobOf r = { server := s, domain := d })) =
        st.results.countP (fun r => decide (r.server = s ∧ r.domain = d)) := by
      refine List.countP_congr fun r _ => ?_
      simp [jobOf, Job.mk.injEq]
    rw [← hcong]
    exact h

/-- Witness for C1 at a one-server one-domain one-iteration run. -/
theorem iterationRun_record_counts_witness :
    ([({ server := "a", domain := "d", duration := 5, error := none } : Result)]).length =
      1 * 1 * 1 ∧
    ([({ server := "a", domain := "d", duration := 5, error := none } : Result)]).countP
      (fun r => decide (r.server = "a" ∧ r.domain = "d")) = 1 := by
  have h := iterationRun_record_counts
    { servers := ["a"], domains := ["d"], iterations := 1, concurrency := 1 }
    (fun _ _ => (5, none)) _ (by decide) (by decide) (by decide)
    (reach_terminal _ _ (by decide) (iterationJobs _) [])
    ⟨rfl, rfl, rfl, rfl⟩
  exact ⟨h.1, h.2 "a" (by decide) "d" (by decide)⟩

/-- C8: a probe failure is captured in the error field of its one Measurement
Record, every dequeued job yields exactly one record so the collected record
count equals the job count whatever the probe returns, a failed probe is
never retried, and a failure never aborts the engine — every non-final state
still has a step. -/
theorem probe_failure_isolation (cfg : EngineConfig) (probe : Probe)
    (st : EngineState) (hconc : 1 ≤ cfg.concurrency)
    (hsteps : Steps cfg probe (initState cfg) st) :
    (Terminal st →
      st.results.length = (iterationJobs cfg).length ∧
      ∀ r ∈ st.results,
        r.duration = (probe r.server r.domain).1 ∧
        r.error = (probe r.server r.domain).2) ∧
    (¬ Terminal st → ∃ st', EngineStep cfg probe st st') := by
  constructor
  · intro hterm
    refine ⟨?_, steps_results_form hsteps⟩
    have h := terminal_results_count hsteps hterm (fun _ => true)
    simpa using h
  · intro hnt
    exact engine_progress hconc (steps_closed_pending hsteps) hnt

/-- Witness for C8: a run whose only probe fails still returns one record
per job, and that record carries the probe's error. -/
theorem probe_failure_isolation_witness :
    ([({ server := "a", domain := "d", duration := 7, error := some "timeout" } : Result)]).length =
      (iterationJobs
        { servers := ["a"], domains := ["d"], iterations := 1, concurrency := 1 }).length ∧
    ({ server := "a", domain := "d", duration := 7, error := some "timeout" } : Result).error =
      some "timeout" := by
  have h := probe_failure_isolation
    { servers := ["a"], domains := ["d"], iterations := 1, concurrency := 1 }
    (fun _ _ => (7, some "timeout")) _ (by decide)
    (reach_terminal _ _ (by decide) (iterationJobs _) [])
  have h1 := h.1 ⟨rfl, rfl, rfl, rfl⟩
  refine ⟨h1.1, ?_⟩
  exact (h1.2
    { server := "a", domain := "d", duration := 7, error := some "timeout" }
    (by decide)).2

/-- C10: `calculateStats` yields one entry per distinct input server (none
for an empty input), every entry satisfies Success + Errors = Total with
Total the number of that server's records, and `Measure` echoes its server
and domain arguments in the Result. -/
theorem calculateStats_structure (l : List Result) (probe : Probe) (j : Job) :
    calculateStats ([] : List Result) = [] ∧
    ((calculateStats l).map (fun e => e.server)).Nodup ∧
    (∀ s, s ∈ (calculateStats l).map (fun e => e.server) ↔
      ∃ r ∈ l, r.server = s) ∧
    (∀ i, ∀ hi : i < (calculateStats l).length,
      (calculateStats l)[i].success + (calculateStats l)[i].errors =
        (calculateStats l)[i].total ∧
      (calculateStats l)[i].total =
        l.countP (fun r => decide (r.server = (calculateStats l)[i].server))) ∧
    (measureJob probe j).server = j.server ∧
    (measureJob probe j).domain = j.domain := by
  refine ⟨rfl, keys_calculateStats_nodup l, ?_, ?_, rfl, rfl⟩
  · intro s
    constructor
    · intro hm
      have hnone : ¬ lookupStats (calculateStats l) s = none :=
        fun hc => ((lookupStats_none_iff _ _).1 hc) hm
      rw [lookupStats_calculateStats] at hnone
      by_cases hany : l.any (fun r => decide (r.server = s)) = true
      · rcases List.any_eq_true.1 hany with ⟨r, hr, hpr⟩
        exact ⟨r, hr, by simpa using hpr⟩
      · rw [if_neg hany] at hnone
        exact absurd rfl hnone
    · rintro ⟨r, hr, hrs⟩
      have hany : l.any (fun x => decide (x.server = s)) = true :=
        List.any_eq_true.2 ⟨r, hr, by simp [hrs]⟩
      have hsome : lookupStats (calculateStats l) s =
          some (finalizeStats (groupedStats l s)) := by
        rw [lookupStats_calculateStats, if_pos hany]
      by_contra hm
      have h0 := (lookupStats_none_iff (calculateStats l) s).2 hm
      rw [hsome] at h0
      exact absurd h0 (by simp)
  · intro i hi
    obtain ⟨e, he⟩ : ∃ e, (calculateStats l)[i] = e := ⟨_, rfl⟩
    rw [he]
    have hmem : e ∈ calculateStats l := he ▸ List.getElem_mem hi
    have hself := lookupStats_self_of_mem (keys_calculateStats_nodup l) hmem
    rw [lookupStats_calculateStats] at hself
    by_cases hany : l.any (fun r => decide (r.server = e.server)) = true
    · rw [if_pos hany] at hself
      have he2 := Option.some.inj hself
      have hs1 := congrArg (fun x => x.success) he2
      have hs2 := congrArg (fun x => x.errors) he2
      have hs3 := congrArg (fun x => x.total) he2
      simp only [finalizeStats_success, finalizeStats_errors, finalizeStats_total,
        groupedStats_success, groupedStats_errors, groupedStats_total] at hs1 hs2 hs3
      constructor
      · have hadd := countP_isNone_add_isSome
          (l.filter fun r => decide (r.server = e.server))
        omega
      · rw [List.countP_eq_length_filter]
        omega
    · rw [if_neg hany] at hself
      exact absurd hself (by simp)

/-- Witness for C10 at a one-record input. -/
theorem calculateStats_structure_witness :
    calculateStats ([] : List Result) = [] ∧
    (((calculateStats
        [({ server := "a", domain := "d", duration := 5, error := none } : Result)]).get
          ⟨0, by decide⟩).success +
      ((calculateStats
        [({ server := "a", domain := "d", duration := 5, error := none } : Result)]).get
          ⟨0, by decide⟩).errors =
      ((calculateStats
        [({ server := "a", domain := "d", duration := 5, error := none } : Result)]).get
          ⟨0, by decide⟩).total) ∧
    (measureJob (fun _ _ => (5, none)) { server := "a", domain := "d" }).server =
      "a" := by
  have h := calculateStats_structure
    [({ server := "a", domain := "d", duration := 5, error := none } : Result)]
    (fun _ _ => (5, none)) { server := "a", domain := "d" }
  exact ⟨h.1, (h.2.2.2.1 0 (by decide)).1, h.2.2.2.2.1⟩

end DnsBench
